import Mathlib

/-!
Verification development for the fastproxy repository.

Byte strings from the Go source are modelled as `List Char` (the source only
manipulates raw bytes, never multi-byte runes, so a one-byte-per-element list
is faithful).  Mutating methods on `URI` and `HostInfo` become state-passing
functions.  The external stdlib function `net.ParseIP` is abstracted as a
parameter `pip`: the repository never inspects the parsed IP in the code the
claims speak about, so every theorem is proved for an arbitrary `pip`.
-/

namespace Fastproxy

def str (s : String) : List Char := s.data

/-- Models the byte classification used by getSchemeIndex in uri.go:
a scheme byte is an ASCII letter or digit. -/
def isAlnumB (c : Char) : Bool :=
  ('a' ≤ c && c ≤ 'z') || ('A' ≤ c && c ≤ 'Z') || ('0' ≤ c && c ≤ '9')

/-- Models bytes.IndexByte: index of the first occurrence of c, none if absent. -/
def bytesIndexByte : List Char → Char → Option Nat
  | [], _ => none
  | x :: rest, c => if x = c then some 0 else (bytesIndexByte rest c).map (· + 1)

/-- Accumulator loop behind strings.LastIndexByte: i is the index of the head
of the remaining list, best is the best index found so far (-1 when none). -/
def lastIndexByteAux (c : Char) : List Char → Nat → Int → Int
  | [], _, best => best
  | x :: rest, i, best => lastIndexByteAux c rest (i + 1) (if x = c then (i : Int) else best)

/-- Models strings.LastIndexByte: index of the last occurrence of c, -1 if absent. -/
def lastIndexByte (s : List Char) (c : Char) : Int :=
  lastIndexByteAux c s 0 (-1)

/-- Recursion behind bytesIndex, scanning the haystack from the front. -/
def bytesIndexAux (sub : List Char) : List Char → Option Nat
  | [] => if sub.isPrefixOf ([] : List Char) then some 0 else none
  | c :: rest => if sub.isPrefixOf (c :: rest) then some 0 else (bytesIndexAux sub rest).map (· + 1)

/-- Models bytes.Index s sub: index of the first occurrence of sub in s. -/
def bytesIndex (s sub : List Char) : Option Nat :=
  bytesIndexAux sub s

/-- Models bytes.Replace s old new 1: replace the first occurrence of old by new. -/
def replaceFirst (s old new : List Char) : List Char :=
  match bytesIndex s old with
  | some i => s.take i ++ new ++ s.drop (i + old.length)
  | none => s

/-- Length of the leading run of slash bytes.  The Go loop in
parseWithoutSchemeQueriesFragments records the index of the last slash of the
leading run and slices one past it, which drops exactly this many bytes. -/
def countLeadingSlashes : List Char → Nat
  | '/' :: rest => countLeadingSlashes rest + 1
  | _ => 0

/-- Models the HostInfo struct of uri.go.  The ip field holds the result of
net.ParseIP on the domain when it parsed. -/
structure HostInfo where
  domain : List Char
  ip : Option (List Char)
  port : List Char
  hostWithPort : List Char
  targetWithPort : List Char
deriving Repr, DecidableEq

/-- Models HostInfo.reset, which blanks every field. -/
def HostInfo.reset (_ : HostInfo) : HostInfo :=
  ⟨[], none, [], [], []⟩

def HostInfo.empty : HostInfo := ⟨[], none, [], [], []⟩

/-- Models the hasPortFuncByte closure inside ParseHostWithPort: the input has
a port exactly when the last colon sits after the last closing bracket. -/
def hasPortFuncByte (host : List Char) : Bool :=
  lastIndexByte host ']' < lastIndexByte host ':'

/-- Models the Go stdlib function net.SplitHostPort, which ParseHostWithPort
calls.  Every error return of the stdlib function becomes none; a successful
split returns the host part and the port part. -/
def splitHostPort (hostport : List Char) : Option (List Char × List Char) :=
  let i := lastIndexByte hostport ':'
  if i < 0 then none
  else
    let i := i.toNat
    if hostport.head? = some '[' then
      match bytesIndexByte hostport ']' with
      | none => none
      | some endIdx =>
        if endIdx + 1 = hostport.length then none
        else if endIdx + 1 = i then
          if bytesIndexByte (hostport.drop 1) '[' ≠ none then none
          else if bytesIndexByte (hostport.drop (endIdx + 1)) ']' ≠ none then none
          else some ((hostport.take endIdx).drop 1, hostport.drop (i + 1))
        else none
    else
      let host := hostport.take i
      if bytesIndexByte host ':' ≠ none then none
      else if bytesIndexByte hostport '[' ≠ none then none
      else if bytesIndexByte hostport ']' ≠ none then none
      else some (host, hostport.drop (i + 1))

/-- Models HostInfo.ParseHostWithPort from uri.go.  The parameter pip abstracts
net.ParseIP.  Empty input returns the receiver unchanged; a failing
net.SplitHostPort resets the receiver; otherwise domain and port are filled in,
and when the domain is nonempty the ip and the two WithPort fields follow. -/
def HostInfo.ParseHostWithPort (pip : List Char → Option (List Char))
    (h : HostInfo) (host : List Char) (isHTTPS : Bool) : HostInfo :=
  if host = [] then h
  else
    let step : Option HostInfo :=
      if hasPortFuncByte host = false then
        some { h with domain := host, port := if isHTTPS then str "443" else str "80" }
      else
        match splitHostPort host with
        | some (d, p) => some { h with domain := d, port := p }
        | none => none
    match step with
    | none => h.reset
    | some h =>
      if h.domain = [] then h
      else
        let h := match pip h.domain with
                 | some parsed => { h with ip := some parsed }
                 | none => h
        let hwp := h.domain ++ ':' :: h.port
        { h with hostWithPort := hwp, targetWithPort := hwp }

/-- Models the URI struct of uri.go. -/
structure URI where
  isConnect : Bool
  full : List Char
  scheme : List Char
  host : List Char
  path : List Char
  queries : List Char
  fragments : List Char
  hostInfo : HostInfo
  pathWithQueryFragment : List Char
  pathWithQueryFragmentParsed : Bool
deriving Repr, DecidableEq

def URI.empty : URI :=
  ⟨false, [], [], [], [], [], [], HostInfo.empty, [], false⟩

/-- Models URI.Reset, which blanks every field of the URI. -/
def URI.Reset (_ : URI) : URI := URI.empty

/-- Models getSchemeIndex from uri.go, in recursive form: the Go loop walks the
bytes, continues over letters and digits, returns the current index at a colon
and -1 at any other byte or at the end. -/
def getSchemeIndex : List Char → Int
  | [] => -1
  | c :: rest =>
    if isAlnumB c then
      if getSchemeIndex rest < 0 then -1 else getSchemeIndex rest + 1
    else if c = ':' then 0
    else -1

/-- Host and path split at the tail of parseWithoutSchemeQueriesFragments:
empty input leaves the URI alone; input starting with a slash is all path;
otherwise everything before the first slash is host, the rest is path. -/
def URI.parseHostPathPart (u : URI) (reqURI : List Char) : URI :=
  if reqURI = [] then u
  else if reqURI.head? = some '/' then { u with path := reqURI }
  else
    match bytesIndexByte reqURI '/' with
    | some j =>
      if 0 < j then { u with host := reqURI.take j, path := reqURI.drop j }
      else { u with host := reqURI }
    | none => { u with host := reqURI }

/-- Models parseWithoutSchemeQueriesFragments from uri.go.  When a scheme was
recognized and the remainder starts with two slashes, the whole leading run of
slashes is dropped (the Go loop slices one past the last leading slash); then
the host and path split applies. -/
def URI.parseWithoutSchemeQueriesFragments (u : URI) (reqURI : List Char) : URI :=
  let reqURI2 :=
    if u.scheme ≠ [] ∧ 2 ≤ reqURI.length ∧ reqURI.take 2 = ['/', '/'] then
      reqURI.drop (countLeadingSlashes reqURI)
    else reqURI
  u.parseHostPathPart reqURI2

/-- Models parseWithoutQueriesFragments from uri.go: recognize a scheme via
getSchemeIndex, store it and continue after the colon, else continue on the
whole input. -/
def URI.parseWithoutQueriesFragments (u : URI) (reqURI : List Char) : URI :=
  if reqURI = [] then u
  else
    let k := getSchemeIndex reqURI
    if 0 ≤ k then
      URI.parseWithoutSchemeQueriesFragments
        { u with scheme := reqURI.take k.toNat } (reqURI.drop (k.toNat + 1))
    else
      u.parseWithoutSchemeQueriesFragments reqURI

/-- Models parseWithoutFragments from uri.go: split off the query part at the
first question mark and continue on the part before it. -/
def URI.parseWithoutFragments (u : URI) (reqURI : List Char) : URI :=
  if reqURI = [] then u
  else
    match bytesIndexByte reqURI '?' with
    | some q =>
      URI.parseWithoutQueriesFragments
        { u with queries := reqURI.drop q } (reqURI.take q)
    | none => u.parseWithoutQueriesFragments reqURI

/-- Fragment split at the top of Parse: split at the first number sign and
continue on the part before it. -/
def URI.parseMain (u : URI) (reqURI : List Char) : URI :=
  match bytesIndexByte reqURI '#' with
  | some f =>
    URI.parseWithoutFragments { u with fragments := reqURI.drop f } (reqURI.take f)
  | none => u.parseWithoutFragments reqURI

/-- State of Parse after the reset, the assignment of isConnect and full, and
the fragment, query, scheme, host and path splits, before the path default and
the CONNECT clearing. -/
def URI.parseBody (u : URI) (isConnect : Bool) (reqURI : List Char) : URI :=
  URI.parseMain { u.Reset with isConnect := isConnect, full := reqURI } reqURI

/-- Models URI.Parse from uri.go.  Empty input returns right after the reset
and the two assignments; otherwise the splits run, an absent path defaults to
a single slash for non-CONNECT, a CONNECT target keeps only host and full, and
finally ParseHostWithPort fills the host info. -/
def URI.Parse (pip : List Char → Option (List Char))
    (u : URI) (isConnect : Bool) (reqURI : List Char) : URI :=
  if reqURI = [] then
    { u.Reset with isConnect := isConnect, full := reqURI }
  else
    let u1 := u.parseBody isConnect reqURI
    let u2 := if isConnect = false ∧ u1.path = [] then { u1 with path := ['/'] } else u1
    let u3 := if isConnect then
                { u2 with scheme := [], path := [], queries := [], fragments := [] }
              else u2
    { u3 with hostInfo := HostInfo.ParseHostWithPort pip u3.hostInfo u3.host isConnect }

/-- Models URI.PathWithQueryFragment from uri.go.  The method memoizes its
result, so the model returns the value together with the updated URI. -/
def URI.PathWithQueryFragment (u : URI) : List Char × URI :=
  if u.pathWithQueryFragmentParsed then (u.pathWithQueryFragment, u)
  else if u.isConnect then
    ([], { u with pathWithQueryFragment := [], pathWithQueryFragmentParsed := true })
  else
    let v1 :=
      if u.host = [] then u.full
      else
        match bytesIndex u.full u.host with
        | some i => u.full.drop (i + u.host.length)
        | none => u.pathWithQueryFragment
    let v2 := if v1 = [] then u.path else v1
    (v2, { u with pathWithQueryFragment := v2, pathWithQueryFragmentParsed := true })

/-- Models URI.ChangeHost from uri.go: unless the host info already shows the
requested hostWithPort, rebuild the raw URI with the new host and reparse. -/
def URI.ChangeHost (pip : List Char → Option (List Char))
    (u : URI) (hostWithPort : List Char) : URI :=
  if u.hostInfo.hostWithPort = hostWithPort then u
  else
    let newRawURI :=
      if u.host = [] then
        hostWithPort ++ (if u.full.head? = some '/' then u.full else '/' :: u.full)
      else
        match bytesIndex u.full u.host with
        | some i =>
          if hostWithPort = [] then u.full.drop (i + u.host.length)
          else replaceFirst u.full u.host hostWithPort
        | none => []
    let newRawURI := if newRawURI = [] then ['/'] else newRawURI
    u.Parse pip u.isConnect newRawURI

/-- Models URI.ChangePathWithFragment from uri.go: a CONNECT URI is returned
unchanged; if the new path already equals the memoized PathWithQueryFragment
nothing further happens; otherwise the raw URI is rebuilt around the current
host and reparsed. -/
def URI.ChangePathWithFragment (pip : List Char → Option (List Char))
    (u : URI) (newPathWithFragment : List Char) : URI :=
  if u.isConnect then u
  else
    let pr := u.PathWithQueryFragment
    if newPathWithFragment = pr.1 then pr.2
    else
      let u := pr.2
      let newRawURI :=
        if u.host = [] then newPathWithFragment
        else
          match bytesIndex u.full u.host with
          | some i =>
            u.full.take (i + u.host.length) ++
              (if newPathWithFragment.head? = some '/' then newPathWithFragment
               else '/' :: newPathWithFragment)
          | none => []
      let newRawURI := if newRawURI = [] then ['/'] else newRawURI
      u.Parse pip u.isConnect newRawURI

/-!
Embedding of the dialer in src/transport/tcpdialer.go.

The network side of tryDial (semaphore, timers, the actual TCP connect) is
abstracted as an oracle: attempt number j dialing the address at position k of
the resolved slice yields `tryD j k`.  The attempt number models the passage of
time between attempts; the loop itself is translated literally.
-/

/-- Outcome of one tryDial call: a connection, ErrDialTimeout, or some other
error identified by a code. -/
inductive DialOutcome where
  | ok (conn : Nat)
  | timeout
  | fail (e : Nat)
deriving Repr, DecidableEq

/-- Error result of the dial loop: ErrDialTimeout, another error code, or the
nil error that Go would return if the loop ran zero iterations. -/
inductive DialErrK where
  | timeout
  | other (e : Nat)
deriving Repr, DecidableEq

/-- Loop body of the DialFunc returned by newDial in tcpdialer.go.  The index
idx is a uint32 in the source, so increments wrap modulo 2^32; n counts the
remaining iterations and shrinks by one after every non-timeout failure.  The
first argument of the oracle is the attempt number j, the second the position
idx % n passed to tryDial. -/
def newDialLoop (tryD : Nat → Nat → DialOutcome) :
    Nat → Nat → Nat → Option DialErrK → Except (Option DialErrK) Nat
  | _, _, 0, lastErr => .error lastErr
  | j, idx, n + 1, _ =>
    match tryD j (idx % (n + 1)) with
    | .ok c => .ok c
    | .timeout => .error (some .timeout)
    | .fail e => newDialLoop tryD (j + 1) ((idx + 1) % 2 ^ 32) n (some (.other e))

/-- Models the DialFunc returned by newDial: run the loop over the n resolved
addresses starting at the round-robin index from getTCPAddrs, with the error
variable starting out nil. -/
def newDialFunc (tryD : Nat → Nat → DialOutcome) (n idx : Nat) :
    Except (Option DialErrK) Nat :=
  newDialLoop tryD 0 idx n none

/-- Models the spec description of the dial loop in explicit attempt-indexed
form: the attempt numbered j (starting at zero) dials the address at position
((idx + j) mod 2^32) mod (n - j); a timeout aborts; any other error advances;
when the attempts are exhausted the error of the last attempt is returned. -/
def dialSpecGo (tryD : Nat → Nat → DialOutcome) (idx n : Nat) :
    Nat → Option DialErrK → Except (Option DialErrK) Nat
  | j, lastErr =>
    if _h : j < n then
      match tryD j (((idx + j) % 2 ^ 32) % (n - j)) with
      | .ok c => .ok c
      | .timeout => .error (some .timeout)
      | .fail e => dialSpecGo tryD idx n (j + 1) (some (.other e))
    else .error lastErr
termination_by j _ => n - j

/-- Models the tcpAddrEntry struct of tcpdialer.go, generic in the address
type.  Times are in nanoseconds as in Go. -/
structure TcpAddrEntry (α : Type) where
  addrs : List α
  addrsIdx : Nat
  resolveTime : Nat
  pending : Bool
deriving Repr, DecidableEq

/-- Models the DefaultDNSCacheDuration constant, one minute in nanoseconds. -/
def DefaultDNSCacheDuration : Nat := 60 * 1000000000

/-- Association-list model of the tcpAddrsMap. -/
def AddrMap (α : Type) : Type := List (String × TcpAddrEntry α)

def lookupA {α : Type} : AddrMap α → String → Option (TcpAddrEntry α)
  | [], _ => none
  | (k, v) :: rest, key => if k = key then some v else lookupA rest key

def insertA {α : Type} : AddrMap α → String → TcpAddrEntry α → AddrMap α
  | [], key, v => [(key, v)]
  | (k, w) :: rest, key, v =>
    if k = key then (key, v) :: rest else (k, w) :: insertA rest key v

/-- Models getTCPAddrs of tcpdialer.go as a sequential state transition.  The
parameter now is the current time; res is the outcome of the resolveTCPAddrs
call that the function performs when it has no usable entry (none models a
resolution error).  A stale non-pending entry is marked pending and treated as
missing; a missing entry triggers resolution, whose failure clears the pending
mark of whatever entry is in the map and returns the error, and whose success
stores a fresh entry.  Finally the round-robin index of the used entry is
incremented (uint32 wrap) and returned with the address slice. -/
def getTCPAddrs {α : Type} (m : AddrMap α) (addr : String) (now : Nat)
    (res : Option (List α)) : AddrMap α × Option (List α × Nat) :=
  let e0 := lookupA m addr
  let step : AddrMap α × Option (TcpAddrEntry α) :=
    match e0 with
    | some e =>
      if e.pending = false ∧ DefaultDNSCacheDuration < now - e.resolveTime then
        (insertA m addr { e with pending := true }, none)
      else (m, some e)
    | none => (m, none)
  let m := step.1
  match step.2 with
  | some e =>
    let idx := (e.addrsIdx + 1) % 2 ^ 32
    (insertA m addr { e with addrsIdx := idx }, some (e.addrs, idx))
  | none =>
    match res with
    | none =>
      let m :=
        match lookupA m addr with
        | some e => if e.pending then insertA m addr { e with pending := false } else m
        | none => m
      (m, none)
    | some addrs =>
      let e : TcpAddrEntry α := ⟨addrs, 0, now, false⟩
      let m := insertA m addr e
      let idx := (e.addrsIdx + 1) % 2 ^ 32
      (insertA m addr { e with addrsIdx := idx }, some (e.addrs, idx))

/-!
Specification-side definitions, written from the wording of the spec so that
the behaviour of the code can be compared against them.
-/

/-- Spec wording for claim C4: the input begins with one or more ASCII
alphanumeric characters followed by a colon.  This helper matches the part
after the first character, namely zero or more alphanumerics and then the
colon. -/
def schemeRegexAux : List Char → Bool
  | [] => false
  | c :: rest => if c = ':' then true else (isAlnumB c && schemeRegexAux rest)

/-- Spec wording for claim C4, the regular expression of one or more ASCII
alphanumeric characters followed by a colon, anchored at the start. -/
def schemeRegexSpec : List Char → Bool
  | [] => false
  | c :: rest => isAlnumB c && schemeRegexAux rest

/-- A byte that may appear inside the domain or port of a plain host:port
string: none of the delimiter bytes slash, question mark, number sign,
brackets or colon. -/
def plainHostCharB (c : Char) : Bool :=
  !(c == '/' || c == '?' || c == '#' || c == '[' || c == ']' || c == ':')

/-- Trivial stand-in for net.ParseIP used by concrete witnesses; every theorem
is proved for an arbitrary pip, so the choice is immaterial. -/
def pipNone : List Char → Option (List Char) := fun _ => none

/-!
Generic lemmas about the byte-search helpers.
-/

theorem bytesIndexByte_eq_none (c : Char) (s : List Char) (h : c ∉ s) :
    bytesIndexByte s c = none := by
  induction s with
  | nil => rfl
  | cons x rest ih =>
    have hx : ¬ x = c := fun hxc => h (hxc ▸ List.mem_cons_self x rest)
    have hr : c ∉ rest := fun hm => h (List.mem_cons_of_mem _ hm)
    simp [bytesIndexByte, hx, ih hr]

theorem bytesIndexByte_append (c : Char) (xs ys : List Char) (h : c ∉ xs) :
    bytesIndexByte (xs ++ ys) c = (bytesIndexByte ys c).map (xs.length + ·) := by
  induction xs with
  | nil =>
    cases hy : bytesIndexByte ys c <;> simp [hy]
  | cons x rest ih =>
    have hx : ¬ x = c := fun hxc => h (hxc ▸ List.mem_cons_self x rest)
    have hr : c ∉ rest := fun hm => h (List.mem_cons_of_mem _ hm)
    cases hy : bytesIndexByte ys c <;>
      simp [bytesIndexByte, hx, ih hr, hy] <;> omega

theorem bytesIndexByte_cons_self (c : Char) (rest : List Char) :
    bytesIndexByte (c :: rest) c = some 0 := by
  simp [bytesIndexByte]

theorem bytesIndexByte_head (c : Char) (s : List Char)
    (h : bytesIndexByte s c = some 0) : s.head? = some c := by
  cases s with
  | nil => simp [bytesIndexByte] at h
  | cons x rest =>
    by_cases hx : x = c
    · simp [hx]
    · simp [bytesIndexByte, hx] at h

theorem lastIndexByteAux_of_notMem (c : Char) (s : List Char) (i : Nat) (b : Int)
    (h : c ∉ s) : lastIndexByteAux c s i b = b := by
  induction s generalizing i b with
  | nil => rfl
  | cons x rest ih =>
    have hx : ¬ x = c := fun hxc => h (hxc ▸ List.mem_cons_self x rest)
    have hr : c ∉ rest := fun hm => h (List.mem_cons_of_mem _ hm)
    simp [lastIndexByteAux, hx, ih _ _ hr]

theorem lastIndexByteAux_append (c : Char) (xs ys : List Char) (i : Nat) (b : Int) :
    lastIndexByteAux c (xs ++ ys) i b =
      lastIndexByteAux c ys (i + xs.length) (lastIndexByteAux c xs i b) := by
  induction xs generalizing i b with
  | nil => simp [lastIndexByteAux]
  | cons x rest ih =>
    show lastIndexByteAux c (rest ++ ys) (i + 1) (if x = c then (i : Int) else b) =
      lastIndexByteAux c ys (i + (rest.length + 1))
        (lastIndexByteAux c rest (i + 1) (if x = c then (i : Int) else b))
    rw [ih]
    congr 1
    omega

theorem lastIndexByte_of_notMem (c : Char) (s : List Char) (h : c ∉ s) :
    lastIndexByte s c = -1 :=
  lastIndexByteAux_of_notMem c s 0 (-1) h

theorem lastIndexByte_sandwich (c : Char) (d pt : List Char)
    (hd : c ∉ d) (hpt : c ∉ pt) :
    lastIndexByte (d ++ c :: pt) c = (d.length : Int) := by
  unfold lastIndexByte
  rw [lastIndexByteAux_append, lastIndexByteAux_of_notMem c d 0 (-1) hd]
  simp only [lastIndexByteAux, if_pos rfl]
  rw [lastIndexByteAux_of_notMem c pt _ _ hpt]
  simp

theorem bytesIndex_of_isPrefixOf (s sub : List Char) (h : sub.isPrefixOf s = true) :
    bytesIndex s sub = some 0 := by
  cases s with
  | nil => simp [bytesIndex, bytesIndexAux, h]
  | cons x rest => simp [bytesIndex, bytesIndexAux, h]

theorem isPrefixOf_append_self (xs ys : List Char) :
    xs.isPrefixOf (xs ++ ys) = true := by
  rw [List.isPrefixOf_iff_prefix]
  exact List.prefix_append _ _

theorem replaceFirst_of_isPrefixOf (s old new : List Char)
    (h : old.isPrefixOf s = true) :
    replaceFirst s old new = new ++ s.drop old.length := by
  unfold replaceFirst
  rw [bytesIndex_of_isPrefixOf s old h]
  simp

theorem take_ne_nil_of_ne_nil (s : List Char) (n : Nat) (h1 : 1 ≤ n) (h2 : s ≠ []) :
    s.take n ≠ [] := by
  cases s with
  | nil => simp at h2
  | cons a l =>
    cases n with
    | zero => omega
    | succ m => simp

theorem countLeadingSlashes_drop_eq_dropWhile (s : List Char) :
    s.drop (countLeadingSlashes s) = s.dropWhile (fun c => c == '/') := by
  induction s with
  | nil => rfl
  | cons x rest ih =>
    by_cases hx : x = '/'
    · subst hx
      simpa [countLeadingSlashes, List.dropWhile] using ih
    · have hxb : (x == '/') = false := by simpa using hx
      rw [List.dropWhile_cons]
      simp only [hxb]
      have : countLeadingSlashes (x :: rest) = 0 := by
        cases hx2 : x :: rest with
        | nil => simp at hx2
        | cons y t =>
          injection hx2 with hy ht
          subst hy; subst ht
          unfold countLeadingSlashes
          split
          · next heq => injection heq with h1 _; exact absurd h1 hx
          · rfl
      simp [this]

theorem head_dropWhile_ne_slash (s : List Char) :
    (s.dropWhile (fun c => c == '/')).head? ≠ some '/' := by
  induction s with
  | nil => simp [List.dropWhile]
  | cons x rest ih =>
    by_cases hx : x = '/'
    · subst hx; simpa [List.dropWhile] using ih
    · have hxb : (x == '/') = false := by simpa using hx
      rw [List.dropWhile_cons]
      simp only [hxb]
      simpa using hx

theorem notMem_of_all_plain (l : List Char) (c : Char)
    (hall : ∀ x ∈ l, plainHostCharB x = true) (hc : plainHostCharB c = false) :
    c ∉ l := fun hmem => by
  have := hall c hmem
  rw [hc] at this
  exact absurd this (by simp)

/-!
Lemmas about getSchemeIndex and the scheme regular expression.
-/

theorem gs_cons (c : Char) (rest : List Char) :
    getSchemeIndex (c :: rest) =
      if isAlnumB c = true then
        (if getSchemeIndex rest < 0 then -1 else getSchemeIndex rest + 1)
      else if c = ':' then 0 else -1 := rfl

theorem bib_cons (x : Char) (rest : List Char) (c : Char) :
    bytesIndexByte (x :: rest) c =
      if x = c then some 0 else (bytesIndexByte rest c).map (· + 1) := rfl

theorem gs_append_neg (d rest : List Char) (hcolon : ':' ∉ d)
    (hna : ∃ c ∈ d, isAlnumB c = false) :
    getSchemeIndex (d ++ rest) = -1 := by
  induction d with
  | nil => simp at hna
  | cons x d ih =>
    rw [List.cons_append, gs_cons]
    by_cases hx : isAlnumB x = true
    · have hna2 : ∃ c ∈ d, isAlnumB c = false := by
        obtain ⟨c, hc, hcf⟩ := hna
        rcases List.mem_cons.mp hc with rfl | hcd
        · rw [hx] at hcf; exact absurd hcf (by simp)
        · exact ⟨c, hcd, hcf⟩
      have hcolon2 : ':' ∉ d := fun hm => hcolon (List.mem_cons_of_mem _ hm)
      rw [if_pos hx, ih hcolon2 hna2]
      norm_num
    · have hxc : ¬ x = ':' := fun hcc => hcolon (hcc ▸ List.mem_cons_self x d)
      rw [if_neg hx, if_neg hxc]

theorem schemeRegexAux_iff (s : List Char) :
    schemeRegexAux s = true ↔ 0 ≤ getSchemeIndex s := by
  induction s with
  | nil => simp [schemeRegexAux, getSchemeIndex]
  | cons c rest ih =>
    show (if c = ':' then true else isAlnumB c && schemeRegexAux rest) = true ↔ _
    rw [gs_cons]
    by_cases hc : c = ':'
    · have hna : ¬ isAlnumB c = true := by rw [hc]; decide
      rw [if_pos hc, if_neg hna, if_pos hc]
      simp
    · rw [if_neg hc]
      by_cases ha : isAlnumB c = true
      · rw [if_pos ha, ha, Bool.true_and, ih]
        by_cases hr : getSchemeIndex rest < 0
        · rw [if_pos hr]; omega
        · rw [if_neg hr]; omega
      · have ha2 : isAlnumB c = false := by
          revert ha; cases isAlnumB c <;> simp
        rw [if_neg ha, if_neg hc, ha2, Bool.false_and]
        simp

theorem schemeRegexSpec_iff (s : List Char) :
    schemeRegexSpec s = true ↔ 1 ≤ getSchemeIndex s := by
  cases s with
  | nil => simp [schemeRegexSpec, getSchemeIndex]
  | cons c rest =>
    show (isAlnumB c && schemeRegexAux rest) = true ↔ _
    rw [gs_cons]
    by_cases ha : isAlnumB c = true
    · rw [if_pos ha, ha, Bool.true_and, schemeRegexAux_iff]
      by_cases hr : getSchemeIndex rest < 0
      · rw [if_pos hr]; omega
      · rw [if_neg hr]; omega
    · have ha2 : isAlnumB c = false := by
        revert ha; cases isAlnumB c <;> simp
      rw [if_neg ha, ha2, Bool.false_and]
      by_cases hc : c = ':'
      · rw [if_pos hc]; simp
      · rw [if_neg hc]; simp

theorem gs_take_nonneg (s : List Char) (m : Nat)
    (h : 0 ≤ getSchemeIndex (s.take m)) :
    getSchemeIndex (s.take m) = getSchemeIndex s := by
  induction s generalizing m with
  | nil => simp
  | cons c rest ih =>
    cases m with
    | zero => simp [getSchemeIndex] at h
    | succ m =>
      rw [List.take_succ_cons] at h ⊢
      by_cases ha : isAlnumB c = true
      · rw [gs_cons c (rest.take m), if_pos ha] at h
        rw [gs_cons c (rest.take m), gs_cons c rest, if_pos ha, if_pos ha]
        by_cases hr : getSchemeIndex (rest.take m) < 0
        · rw [if_pos hr] at h; omega
        · have h0 : 0 ≤ getSchemeIndex (rest.take m) := by omega
          rw [ih m h0]
      · rw [gs_cons c (rest.take m), gs_cons c rest, if_neg ha, if_neg ha]

theorem gs_take_lt (s : List Char) (m : Nat)
    (h0 : 0 ≤ getSchemeIndex s) (hm : getSchemeIndex s < (m : Int)) :
    getSchemeIndex (s.take m) = getSchemeIndex s := by
  induction s generalizing m with
  | nil => simp
  | cons c rest ih =>
    cases m with
    | zero =>
      rw [Nat.cast_zero] at hm
      omega
    | succ m =>
      rw [List.take_succ_cons]
      by_cases ha : isAlnumB c = true
      · rw [gs_cons c rest, if_pos ha] at h0 hm
        rw [gs_cons c (rest.take m), gs_cons c rest, if_pos ha, if_pos ha]
        by_cases hr : getSchemeIndex rest < 0
        · rw [if_pos hr] at h0; omega
        · have h0r : 0 ≤ getSchemeIndex rest := by omega
          have hmr : getSchemeIndex rest < (m : Int) := by
            rw [if_neg hr] at hm
            push_cast at hm
            omega
          rw [ih m h0r hmr]
      · rw [gs_cons c (rest.take m), gs_cons c rest, if_neg ha, if_neg ha]

theorem gs_lt_index (s : List Char) (ch : Char) (f : Nat)
    (h0 : 0 ≤ getSchemeIndex s) (hch : isAlnumB ch = false) (hch2 : ch ≠ ':')
    (hidx : bytesIndexByte s ch = some f) :
    getSchemeIndex s < (f : Int) := by
  induction s generalizing f with
  | nil => simp [bytesIndexByte] at hidx
  | cons c rest ih =>
    by_cases hc : c = ch
    · rw [gs_cons, hc] at h0
      have hna : ¬ isAlnumB ch = true := by rw [hch]; simp
      rw [if_neg hna, if_neg hch2] at h0
      omega
    · rw [bib_cons, if_neg hc] at hidx
      cases hr : bytesIndexByte rest ch with
      | none => rw [hr] at hidx; simp at hidx
      | some f2 =>
        rw [hr] at hidx
        simp only [Option.map_some'] at hidx
        injection hidx with hf
        subst hf
        by_cases ha : isAlnumB c = true
        · rw [gs_cons c rest, if_pos ha] at h0 ⊢
          by_cases hrr : getSchemeIndex rest < 0
          · rw [if_pos hrr] at h0; omega
          · have h0r : 0 ≤ getSchemeIndex rest := by omega
            have h2 := ih f2 h0r hr
            rw [if_neg hrr]
            push_cast
            omega
        · rw [gs_cons c rest, if_neg ha] at h0 ⊢
          by_cases hcc : c = ':'
          · rw [if_pos hcc]; push_cast; omega
          · rw [if_neg hcc] at h0; omega

theorem gs_take_iff (s : List Char) (ch : Char) (q : Nat)
    (hch : isAlnumB ch = false) (hch2 : ch ≠ ':')
    (hidx : bytesIndexByte s ch = some q) :
    (1 ≤ getSchemeIndex (s.take q) ↔ 1 ≤ getSchemeIndex s) := by
  constructor
  · intro h1
    have h0 : 0 ≤ getSchemeIndex (s.take q) := by omega
    rw [gs_take_nonneg s q h0] at h1
    exact h1
  · intro h1
    have h0 : 0 ≤ getSchemeIndex s := by omega
    have := gs_lt_index s ch q h0 hch hch2 hidx
    rw [gs_take_lt s q h0 this]
    exact h1

/-!
Preservation lemmas: which URI fields each stage of the parser leaves alone.
-/

theorem php_isConnect (u : URI) (s : List Char) :
    (u.parseHostPathPart s).isConnect = u.isConnect := by
  unfold URI.parseHostPathPart
  repeat' split
  all_goals rfl

theorem php_full (u : URI) (s : List Char) :
    (u.parseHostPathPart s).full = u.full := by
  unfold URI.parseHostPathPart
  repeat' split
  all_goals rfl

theorem php_scheme (u : URI) (s : List Char) :
    (u.parseHostPathPart s).scheme = u.scheme := by
  unfold URI.parseHostPathPart
  repeat' split
  all_goals rfl

theorem php_hostInfo (u : URI) (s : List Char) :
    (u.parseHostPathPart s).hostInfo = u.hostInfo := by
  unfold URI.parseHostPathPart
  repeat' split
  all_goals rfl

theorem php_memoParsed (u : URI) (s : List Char) :
    (u.parseHostPathPart s).pathWithQueryFragmentParsed = u.pathWithQueryFragmentParsed := by
  unfold URI.parseHostPathPart
  repeat' split
  all_goals rfl

theorem pwsqf_isConnect (u : URI) (s : List Char) :
    (u.parseWithoutSchemeQueriesFragments s).isConnect = u.isConnect := by
  unfold URI.parseWithoutSchemeQueriesFragments
  exact php_isConnect u _

theorem pwsqf_full (u : URI) (s : List Char) :
    (u.parseWithoutSchemeQueriesFragments s).full = u.full := by
  unfold URI.parseWithoutSchemeQueriesFragments
  exact php_full u _

theorem pwsqf_scheme (u : URI) (s : List Char) :
    (u.parseWithoutSchemeQueriesFragments s).scheme = u.scheme := by
  unfold URI.parseWithoutSchemeQueriesFragments
  exact php_scheme u _

theorem pwsqf_hostInfo (u : URI) (s : List Char) :
    (u.parseWithoutSchemeQueriesFragments s).hostInfo = u.hostInfo := by
  unfold URI.parseWithoutSchemeQueriesFragments
  exact php_hostInfo u _

theorem pwsqf_memoParsed (u : URI) (s : List Char) :
    (u.parseWithoutSchemeQueriesFragments s).pathWithQueryFragmentParsed
      = u.pathWithQueryFragmentParsed := by
  unfold URI.parseWithoutSchemeQueriesFragments
  exact php_memoParsed u _

theorem pwqf2_isConnect (u : URI) (s : List Char) :
    (u.parseWithoutQueriesFragments s).isConnect = u.isConnect := by
  unfold URI.parseWithoutQueriesFragments
  split
  · rfl
  · dsimp only
    split
    · rw [pwsqf_isConnect]
    · rw [pwsqf_isConnect]

theorem pwqf2_full (u : URI) (s : List Char) :
    (u.parseWithoutQueriesFragments s).full = u.full := by
  unfold URI.parseWithoutQueriesFragments
  split
  · rfl
  · dsimp only
    split
    · rw [pwsqf_full]
    · rw [pwsqf_full]

theorem pwqf2_hostInfo (u : URI) (s : List Char) :
    (u.parseWithoutQueriesFragments s).hostInfo = u.hostInfo := by
  unfold URI.parseWithoutQueriesFragments
  split
  · rfl
  · dsimp only
    split
    · rw [pwsqf_hostInfo]
    · rw [pwsqf_hostInfo]

theorem pwqf2_memoParsed (u : URI) (s : List Char) :
    (u.parseWithoutQueriesFragments s).pathWithQueryFragmentParsed
      = u.pathWithQueryFragmentParsed := by
  unfold URI.parseWithoutQueriesFragments
  split
  · rfl
  · dsimp only
    split
    · rw [pwsqf_memoParsed]
    · rw [pwsqf_memoParsed]

theorem pwf_isConnect (u : URI) (s : List Char) :
    (u.parseWithoutFragments s).isConnect = u.isConnect := by
  unfold URI.parseWithoutFragments
  split
  · rfl
  · split
    · rw [pwqf2_isConnect]
    · rw [pwqf2_isConnect]

theorem pwf_full (u : URI) (s : List Char) :
    (u.parseWithoutFragments s).full = u.full := by
  unfold URI.parseWithoutFragments
  split
  · rfl
  · split
    · rw [pwqf2_full]
    · rw [pwqf2_full]

theorem pwf_hostInfo (u : URI) (s : List Char) :
    (u.parseWithoutFragments s).hostInfo = u.hostInfo := by
  unfold URI.parseWithoutFragments
  split
  · rfl
  · split
    · rw [pwqf2_hostInfo]
    · rw [pwqf2_hostInfo]

theorem pwf_memoParsed (u : URI) (s : List Char) :
    (u.parseWithoutFragments s).pathWithQueryFragmentParsed
      = u.pathWithQueryFragmentParsed := by
  unfold URI.parseWithoutFragments
  split
  · rfl
  · split
    · rw [pwqf2_memoParsed]
    · rw [pwqf2_memoParsed]

theorem pm_isConnect (u : URI) (s : List Char) :
    (u.parseMain s).isConnect = u.isConnect := by
  unfold URI.parseMain
  split
  · rw [pwf_isConnect]
  · rw [pwf_isConnect]

theorem pm_full (u : URI) (s : List Char) :
    (u.parseMain s).full = u.full := by
  unfold URI.parseMain
  split
  · rw [pwf_full]
  · rw [pwf_full]

theorem pm_hostInfo (u : URI) (s : List Char) :
    (u.parseMain s).hostInfo = u.hostInfo := by
  unfold URI.parseMain
  split
  · rw [pwf_hostInfo]
  · rw [pwf_hostInfo]

theorem pm_memoParsed (u : URI) (s : List Char) :
    (u.parseMain s).pathWithQueryFragmentParsed = u.pathWithQueryFragmentParsed := by
  unfold URI.parseMain
  split
  · rw [pwf_memoParsed]
  · rw [pwf_memoParsed]

theorem pb_isConnect (u : URI) (ic : Bool) (raw : List Char) :
    (URI.parseBody u ic raw).isConnect = ic := by
  unfold URI.parseBody
  rw [pm_isConnect]

theorem pb_full (u : URI) (ic : Bool) (raw : List Char) :
    (URI.parseBody u ic raw).full = raw := by
  unfold URI.parseBody
  rw [pm_full]

theorem pb_hostInfo (u : URI) (ic : Bool) (raw : List Char) :
    (URI.parseBody u ic raw).hostInfo = HostInfo.empty := by
  unfold URI.parseBody
  rw [pm_hostInfo]
  rfl

theorem pb_memoParsed (u : URI) (ic : Bool) (raw : List Char) :
    (URI.parseBody u ic raw).pathWithQueryFragmentParsed = false := by
  unfold URI.parseBody
  rw [pm_memoParsed]
  rfl

/-!
Projection lemmas for the whole of Parse.
-/

theorem Parse_full (pip : List Char → Option (List Char)) (u : URI) (ic : Bool)
    (raw : List Char) : (URI.Parse pip u ic raw).full = raw := by
  unfold URI.Parse
  split
  · rfl
  · dsimp only
    repeat' split
    all_goals exact pb_full u ic raw

theorem Parse_isConnect (pip : List Char → Option (List Char)) (u : URI) (ic : Bool)
    (raw : List Char) : (URI.Parse pip u ic raw).isConnect = ic := by
  unfold URI.Parse
  split
  · rfl
  · dsimp only
    repeat' split
    all_goals exact pb_isConnect u ic raw

theorem Parse_memoParsed (pip : List Char → Option (List Char)) (u : URI) (ic : Bool)
    (raw : List Char) : (URI.Parse pip u ic raw).pathWithQueryFragmentParsed = false := by
  unfold URI.Parse
  split
  · rfl
  · dsimp only
    repeat' split
    all_goals exact pb_memoParsed u ic raw

theorem Parse_host (pip : List Char → Option (List Char)) (u : URI) (ic : Bool)
    (raw : List Char) (hne : raw ≠ []) :
    (URI.Parse pip u ic raw).host = (URI.parseBody u ic raw).host := by
  unfold URI.Parse
  rw [if_neg hne]
  dsimp only
  repeat' split
  all_goals rfl

theorem Parse_hostInfo (pip : List Char → Option (List Char)) (u : URI) (ic : Bool)
    (raw : List Char) (hne : raw ≠ []) :
    (URI.Parse pip u ic raw).hostInfo =
      HostInfo.ParseHostWithPort pip HostInfo.empty (URI.parseBody u ic raw).host ic := by
  unfold URI.Parse
  rw [if_neg hne]
  dsimp only
  repeat' split
  all_goals rw [pb_hostInfo]

theorem Parse_scheme_false (pip : List Char → Option (List Char)) (u : URI)
    (raw : List Char) (hne : raw ≠ []) :
    (URI.Parse pip u false raw).scheme = (URI.parseBody u false raw).scheme := by
  unfold URI.Parse
  rw [if_neg hne]
  dsimp only
  repeat' split
  all_goals first
    | rfl
    | simp_all

theorem Parse_path_false (pip : List Char → Option (List Char)) (u : URI)
    (raw : List Char) (hne : raw ≠ []) :
    (URI.Parse pip u false raw).path =
      (if (URI.parseBody u false raw).path = [] then ['/']
       else (URI.parseBody u false raw).path) := by
  unfold URI.Parse
  rw [if_neg hne]
  dsimp only
  repeat' split
  all_goals simp_all

theorem Parse_connect_clears (pip : List Char → Option (List Char)) (u : URI)
    (raw : List Char) :
    (URI.Parse pip u true raw).scheme = [] ∧ (URI.Parse pip u true raw).path = [] ∧
    (URI.Parse pip u true raw).queries = [] ∧ (URI.Parse pip u true raw).fragments = [] := by
  unfold URI.Parse
  split
  · exact ⟨rfl, rfl, rfl, rfl⟩
  · dsimp only
    repeat' split
    all_goals first
      | exact ⟨rfl, rfl, rfl, rfl⟩
      | simp_all

/-!
Lemmas about ParseHostWithPort.
-/

theorem hasPortFuncByte_nil : hasPortFuncByte [] = false := rfl

theorem PHWP_noPort (pip : List Char → Option (List Char)) (h0 : HostInfo)
    (host : List Char) (isHTTPS : Bool)
    (hne : host ≠ []) (hp : hasPortFuncByte host = false) :
    (HostInfo.ParseHostWithPort pip h0 host isHTTPS).domain = host ∧
    (HostInfo.ParseHostWithPort pip h0 host isHTTPS).port
      = (if isHTTPS then str "443" else str "80") ∧
    (HostInfo.ParseHostWithPort pip h0 host isHTTPS).hostWithPort
      = host ++ ':' :: (if isHTTPS then str "443" else str "80") ∧
    (HostInfo.ParseHostWithPort pip h0 host isHTTPS).targetWithPort
      = host ++ ':' :: (if isHTTPS then str "443" else str "80") := by
  unfold HostInfo.ParseHostWithPort
  rw [if_neg hne]
  dsimp only
  rw [if_pos hp]
  dsimp only
  rw [if_neg hne]
  cases hpip : pip host <;>
    dsimp only <;> exact ⟨rfl, rfl, rfl, rfl⟩

theorem PHWP_withPort (pip : List Char → Option (List Char)) (h0 : HostInfo)
    (host : List Char) (isHTTPS : Bool) (d p : List Char)
    (hp : hasPortFuncByte host = true) (hsplit : splitHostPort host = some (d, p))
    (hd : d ≠ []) :
    (HostInfo.ParseHostWithPort pip h0 host isHTTPS).domain = d ∧
    (HostInfo.ParseHostWithPort pip h0 host isHTTPS).port = p ∧
    (HostInfo.ParseHostWithPort pip h0 host isHTTPS).hostWithPort = d ++ ':' :: p ∧
    (HostInfo.ParseHostWithPort pip h0 host isHTTPS).targetWithPort = d ++ ':' :: p := by
  have hne : host ≠ [] := by
    intro he
    rw [he, hasPortFuncByte_nil] at hp
    simp at hp
  unfold HostInfo.ParseHostWithPort
  rw [if_neg hne]
  dsimp only
  rw [hp]
  rw [if_neg (by simp : ¬ (true = false))]
  rw [hsplit]
  dsimp only
  rw [if_neg hd]
  cases hpip : pip d <;>
    dsimp only <;> exact ⟨rfl, rfl, rfl, rfl⟩

theorem PHWP_err (pip : List Char → Option (List Char)) (h0 : HostInfo)
    (host : List Char) (isHTTPS : Bool)
    (hp : hasPortFuncByte host = true) (hsplit : splitHostPort host = none) :
    HostInfo.ParseHostWithPort pip h0 host isHTTPS = HostInfo.empty := by
  have hne : host ≠ [] := by
    intro he
    rw [he, hasPortFuncByte_nil] at hp
    simp at hp
  unfold HostInfo.ParseHostWithPort
  rw [if_neg hne]
  dsimp only
  rw [hp]
  rw [if_neg (by simp : ¬ (true = false))]
  rw [hsplit]
  rfl

theorem notMem_plain_append (d pt : List Char) (c : Char)
    (hdc : ∀ x ∈ d, plainHostCharB x = true) (hptc : ∀ x ∈ pt, plainHostCharB x = true)
    (hc : plainHostCharB c = false) (hcc : c ≠ ':') :
    c ∉ d ++ ':' :: pt := by
  intro hm
  rcases List.mem_append.mp hm with h | h
  · exact notMem_of_all_plain d c hdc hc h
  · rcases List.mem_cons.mp h with h | h
    · exact hcc h
    · exact notMem_of_all_plain pt c hptc hc h

theorem hasPort_plain (d pt : List Char)
    (hdc : ∀ c ∈ d, plainHostCharB c = true) (hptc : ∀ c ∈ pt, plainHostCharB c = true) :
    hasPortFuncByte (d ++ ':' :: pt) = true := by
  have hcd : ':' ∉ d := notMem_of_all_plain d ':' hdc (by decide)
  have hcp : ':' ∉ pt := notMem_of_all_plain pt ':' hptc (by decide)
  have hbr : ']' ∉ d ++ ':' :: pt :=
    notMem_plain_append d pt ']' hdc hptc (by decide) (by decide)
  have h1 : lastIndexByte (d ++ ':' :: pt) ':' = (d.length : Int) :=
    lastIndexByte_sandwich ':' d pt hcd hcp
  have h2 : lastIndexByte (d ++ ':' :: pt) ']' = -1 :=
    lastIndexByte_of_notMem ']' _ hbr
  simp only [hasPortFuncByte, h1, h2, decide_eq_true_eq]
  omega

theorem splitHostPort_plain (d pt : List Char) (hd : d ≠ [])
    (hdc : ∀ c ∈ d, plainHostCharB c = true) (hptc : ∀ c ∈ pt, plainHostCharB c = true) :
    splitHostPort (d ++ ':' :: pt) = some (d, pt) := by
  have hcd : ':' ∉ d := notMem_of_all_plain d ':' hdc (by decide)
  have hcp : ':' ∉ pt := notMem_of_all_plain pt ':' hptc (by decide)
  have h1 : lastIndexByte (d ++ ':' :: pt) ':' = (d.length : Int) :=
    lastIndexByte_sandwich ':' d pt hcd hcp
  have hobr : '[' ∉ d ++ ':' :: pt :=
    notMem_plain_append d pt '[' hdc hptc (by decide) (by decide)
  have hcbr : ']' ∉ d ++ ':' :: pt :=
    notMem_plain_append d pt ']' hdc hptc (by decide) (by decide)
  have hhead : (d ++ ':' :: pt).head? ≠ some '[' := by
    cases d with
    | nil => exact absurd rfl hd
    | cons x d2 =>
      have hx : plainHostCharB x = true := hdc x (List.mem_cons_self x d2)
      have hxne : x ≠ '[' := by
        intro hxe
        rw [hxe] at hx
        exact absurd hx (by decide)
      simpa using hxne
  have htake : (d ++ ':' :: pt).take d.length = d := List.take_left d (':' :: pt)
  have hdrop : (d ++ ':' :: pt).drop (d.length + 1) = pt := by
    have := @List.drop_append Char d (':' :: pt) 1
    simpa using this
  unfold splitHostPort
  dsimp only
  rw [h1]
  rw [if_neg (by omega : ¬ ((d.length : Int) < 0))]
  rw [if_neg hhead]
  have htn : ((d.length : Int)).toNat = d.length := Int.toNat_natCast d.length
  rw [htn, htake]
  rw [if_neg (by simp [bytesIndexByte_eq_none ':' d hcd])]
  rw [if_neg (by simp [bytesIndexByte_eq_none '[' _ hobr])]
  rw [if_neg (by simp [bytesIndexByte_eq_none ']' _ hcbr])]
  rw [hdrop]

/-!
Behaviour of the parser stages on inputs of the shape host ++ tail, where the
host is domain ++ colon ++ port made of plain bytes and the tail is either
empty or starts with a slash.
-/

theorem php_hostlike (u : URI) (d pt t2 : List Char) (hd : d ≠ [])
    (hdc : ∀ c ∈ d, plainHostCharB c = true) (hptc : ∀ c ∈ pt, plainHostCharB c = true)
    (ht2 : t2 = [] ∨ t2.head? = some '/') :
    (u.parseHostPathPart ((d ++ ':' :: pt) ++ t2)).host = d ++ ':' :: pt ∧
    (t2 = [] → (u.parseHostPathPart ((d ++ ':' :: pt) ++ t2)).path = u.path) ∧
    (t2 ≠ [] → (u.parseHostPathPart ((d ++ ':' :: pt) ++ t2)).path ≠ []) := by
  obtain ⟨x, d2, rfl⟩ : ∃ x d2, d = x :: d2 := by
    cases d with
    | nil => exact absurd rfl hd
    | cons x d2 => exact ⟨x, d2, rfl⟩
  have hx : plainHostCharB x = true := hdc x (List.mem_cons_self _ _)
  have hxs : x ≠ '/' := by
    intro he
    rw [he] at hx
    exact absurd hx (by decide)
  have hslash : '/' ∉ (x :: d2) ++ ':' :: pt :=
    notMem_plain_append _ pt '/' hdc hptc (by decide) (by decide)
  rcases ht2 with h0 | hhead
  · subst h0
    rw [List.append_nil]
    unfold URI.parseHostPathPart
    rw [if_neg (by simp)]
    rw [if_neg (by simp [hxs])]
    rw [bytesIndexByte_eq_none '/' _ hslash]
    exact ⟨rfl, fun _ => rfl, fun hne2 => absurd rfl hne2⟩
  · obtain ⟨t3, rfl⟩ : ∃ t3, t2 = '/' :: t3 := by
      cases t2 with
      | nil => simp at hhead
      | cons y t3 =>
        simp only [List.head?_cons, Option.some_inj] at hhead
        exact ⟨t3, by rw [hhead]⟩
    unfold URI.parseHostPathPart
    rw [if_neg (by simp)]
    rw [if_neg (by simp [hxs])]
    rw [bytesIndexByte_append '/' _ _ hslash, bytesIndexByte_cons_self,
      Option.map_some']
    dsimp only
    rw [if_pos (by simp)]
    refine ⟨?_, ?_, ?_⟩
    · show ((x :: d2) ++ ':' :: pt ++ '/' :: t3).take (((x :: d2) ++ ':' :: pt).length + 0)
        = (x :: d2) ++ ':' :: pt
      rw [Nat.add_zero, List.take_left]
    · intro h0
      simp at h0
    · intro _
      show ((x :: d2) ++ ':' :: pt ++ '/' :: t3).drop (((x :: d2) ++ ':' :: pt).length + 0) ≠ []
      rw [Nat.add_zero, List.drop_left]
      simp

theorem pwsqf_hostlike (u : URI) (d pt t2 : List Char) (hscheme : u.scheme = [])
    (hd : d ≠ [])
    (hdc : ∀ c ∈ d, plainHostCharB c = true) (hptc : ∀ c ∈ pt, plainHostCharB c = true)
    (ht2 : t2 = [] ∨ t2.head? = some '/') :
    (u.parseWithoutSchemeQueriesFragments ((d ++ ':' :: pt) ++ t2)).host = d ++ ':' :: pt ∧
    (t2 = [] →
      (u.parseWithoutSchemeQueriesFragments ((d ++ ':' :: pt) ++ t2)).path = u.path) ∧
    (t2 ≠ [] →
      (u.parseWithoutSchemeQueriesFragments ((d ++ ':' :: pt) ++ t2)).path ≠ []) := by
  unfold URI.parseWithoutSchemeQueriesFragments
  dsimp only
  rw [if_neg (fun hcon => hcon.1 hscheme)]
  exact php_hostlike u d pt t2 hd hdc hptc ht2

theorem pwqf2_hostlike (u : URI) (d pt t2 : List Char) (hscheme : u.scheme = [])
    (hd : d ≠ [])
    (hdc : ∀ c ∈ d, plainHostCharB c = true) (hptc : ∀ c ∈ pt, plainHostCharB c = true)
    (hna : ∃ c ∈ d, isAlnumB c = false)
    (ht2 : t2 = [] ∨ t2.head? = some '/') :
    (u.parseWithoutQueriesFragments ((d ++ ':' :: pt) ++ t2)).host = d ++ ':' :: pt ∧
    (t2 = [] →
      (u.parseWithoutQueriesFragments ((d ++ ':' :: pt) ++ t2)).path = u.path) ∧
    (t2 ≠ [] →
      (u.parseWithoutQueriesFragments ((d ++ ':' :: pt) ++ t2)).path ≠ []) := by
  have hdcol : ':' ∉ d := notMem_of_all_plain d ':' hdc (by decide)
  have hgs : getSchemeIndex ((d ++ ':' :: pt) ++ t2) = -1 := by
    rw [List.append_assoc, List.cons_append]
    exact gs_append_neg d (':' :: (pt ++ t2)) hdcol hna
  have hne : (d ++ ':' :: pt) ++ t2 ≠ [] := by
    cases d with
    | nil => exact absurd rfl hd
    | cons x d2 => simp
  unfold URI.parseWithoutQueriesFragments
  rw [if_neg hne]
  dsimp only
  rw [hgs]
  rw [if_neg (by norm_num)]
  exact pwsqf_hostlike u d pt t2 hscheme hd hdc hptc ht2

theorem pwf_hostlike (u : URI) (d pt t1 : List Char) (hscheme : u.scheme = [])
    (hd : d ≠ [])
    (hdc : ∀ c ∈ d, plainHostCharB c = true) (hptc : ∀ c ∈ pt, plainHostCharB c = true)
    (hna : ∃ c ∈ d, isAlnumB c = false)
    (ht1 : t1 = [] ∨ t1.head? = some '/') :
    (u.parseWithoutFragments ((d ++ ':' :: pt) ++ t1)).host = d ++ ':' :: pt ∧
    (t1 = [] →
      (u.parseWithoutFragments ((d ++ ':' :: pt) ++ t1)).path = u.path) ∧
    (t1 ≠ [] →
      (u.parseWithoutFragments ((d ++ ':' :: pt) ++ t1)).path ≠ []) := by
  have hne : (d ++ ':' :: pt) ++ t1 ≠ [] := by
    cases d with
    | nil => exact absurd rfl hd
    | cons x d2 => simp
  have hq : '?' ∉ d ++ ':' :: pt :=
    notMem_plain_append d pt '?' hdc hptc (by decide) (by decide)
  unfold URI.parseWithoutFragments
  rw [if_neg hne]
  rw [bytesIndexByte_append '?' _ _ hq]
  cases hqi : bytesIndexByte t1 '?' with
  | none =>
    exact pwqf2_hostlike u d pt t1 hscheme hd hdc hptc hna ht1
  | some q =>
    have ht1ne : t1 ≠ [] := by
      intro h0
      rw [h0] at hqi
      simp [bytesIndexByte] at hqi
    obtain ⟨t3, rfl⟩ : ∃ t3, t1 = '/' :: t3 := by
      rcases ht1 with h0 | hhead
      · exact absurd h0 ht1ne
      · cases t1 with
        | nil => simp at hhead
        | cons y t3 =>
          simp only [List.head?_cons, Option.some_inj] at hhead
          exact ⟨t3, by rw [hhead]⟩
    have hq1 : 1 ≤ q := by
      rcases Nat.eq_zero_or_pos q with h0 | h1
      · rw [h0] at hqi
        have := bytesIndexByte_head '?' _ hqi
        simp at this
      · exact h1
    rw [Option.map_some']
    dsimp only
    rw [List.take_append q]
    have htake : ('/' :: t3).take q ≠ [] :=
      take_ne_nil_of_ne_nil _ q hq1 (by simp)
    have hth : (('/' :: t3).take q).head? = some '/' := by
      cases q with
      | zero => omega
      | succ n => simp
    have := pwqf2_hostlike { u with queries := (((d ++ ':' :: pt) ++ '/' :: t3)).drop ((d ++ ':' :: pt).length + q) }
      d pt (('/' :: t3).take q) hscheme hd hdc hptc hna (Or.inr hth)
    refine ⟨this.1, ?_, fun _ => this.2.2 htake⟩
    intro h0
    simp at h0

theorem pm_hostlike (u : URI) (d pt t : List Char) (hscheme : u.scheme = [])
    (hd : d ≠ [])
    (hdc : ∀ c ∈ d, plainHostCharB c = true) (hptc : ∀ c ∈ pt, plainHostCharB c = true)
    (hna : ∃ c ∈ d, isAlnumB c = false)
    (ht : t = [] ∨ t.head? = some '/') :
    (u.parseMain ((d ++ ':' :: pt) ++ t)).host = d ++ ':' :: pt ∧
    (t = [] → (u.parseMain ((d ++ ':' :: pt) ++ t)).path = u.path) ∧
    (t ≠ [] → (u.parseMain ((d ++ ':' :: pt) ++ t)).path ≠ []) := by
  have hq : '#' ∉ d ++ ':' :: pt :=
    notMem_plain_append d pt '#' hdc hptc (by decide) (by decide)
  unfold URI.parseMain
  rw [bytesIndexByte_append '#' _ _ hq]
  cases hqi : bytesIndexByte t '#' with
  | none =>
    exact pwf_hostlike u d pt t hscheme hd hdc hptc hna ht
  | some q =>
    have htne : t ≠ [] := by
      intro h0
      rw [h0] at hqi
      simp [bytesIndexByte] at hqi
    obtain ⟨t3, rfl⟩ : ∃ t3, t = '/' :: t3 := by
      rcases ht with h0 | hhead
      · exact absurd h0 htne
      · cases t with
        | nil => simp at hhead
        | cons y t3 =>
          simp only [List.head?_cons, Option.some_inj] at hhead
          exact ⟨t3, by rw [hhead]⟩
    have hq1 : 1 ≤ q := by
      rcases Nat.eq_zero_or_pos q with h0 | h1
      · rw [h0] at hqi
        have := bytesIndexByte_head '#' _ hqi
        simp at this
      · exact h1
    rw [Option.map_some']
    dsimp only
    rw [List.take_append q]
    have htake : (('/' :: t3).take q) ≠ [] :=
      take_ne_nil_of_ne_nil _ q hq1 (by simp)
    have hth : (('/' :: t3).take q).head? = some '/' := by
      cases q with
      | zero => omega
      | succ n => simp
    have := pwf_hostlike { u with fragments := (((d ++ ':' :: pt) ++ '/' :: t3)).drop ((d ++ ':' :: pt).length + q) }
      d pt (('/' :: t3).take q) hscheme hd hdc hptc hna (Or.inr hth)
    refine ⟨this.1, ?_, fun _ => this.2.2 htake⟩
    intro h0
    simp at h0

theorem pb_hostlike (u : URI) (ic : Bool) (d pt t : List Char) (hd : d ≠ [])
    (hdc : ∀ c ∈ d, plainHostCharB c = true) (hptc : ∀ c ∈ pt, plainHostCharB c = true)
    (hna : ∃ c ∈ d, isAlnumB c = false)
    (ht : t = [] ∨ t.head? = some '/') :
    (URI.parseBody u ic ((d ++ ':' :: pt) ++ t)).host = d ++ ':' :: pt ∧
    (t = [] → (URI.parseBody u ic ((d ++ ':' :: pt) ++ t)).path = []) ∧
    (t ≠ [] → (URI.parseBody u ic ((d ++ ':' :: pt) ++ t)).path ≠ []) := by
  unfold URI.parseBody
  exact pm_hostlike _ d pt t rfl hd hdc hptc hna ht

theorem Parse_hostlike (pip : List Char → Option (List Char)) (u : URI)
    (d pt t : List Char) (hd : d ≠ [])
    (hdc : ∀ c ∈ d, plainHostCharB c = true) (hptc : ∀ c ∈ pt, plainHostCharB c = true)
    (hna : ∃ c ∈ d, isAlnumB c = false)
    (ht : t = [] ∨ t.head? = some '/') :
    (URI.Parse pip u false ((d ++ ':' :: pt) ++ t)).host = d ++ ':' :: pt ∧
    (URI.Parse pip u false ((d ++ ':' :: pt) ++ t)).full = (d ++ ':' :: pt) ++ t ∧
    (URI.Parse pip u false ((d ++ ':' :: pt) ++ t)).isConnect = false ∧
    (URI.Parse pip u false ((d ++ ':' :: pt) ++ t)).pathWithQueryFragmentParsed = false ∧
    (URI.Parse pip u false ((d ++ ':' :: pt) ++ t)).hostInfo.hostWithPort = d ++ ':' :: pt ∧
    (t = [] → (URI.Parse pip u false ((d ++ ':' :: pt) ++ t)).path = ['/']) := by
  have hne : (d ++ ':' :: pt) ++ t ≠ [] := by
    cases d with
    | nil => exact absurd rfl hd
    | cons x d2 => simp
  have hb := pb_hostlike u false d pt t hd hdc hptc hna ht
  refine ⟨?_, Parse_full pip u false _, Parse_isConnect pip u false _,
    Parse_memoParsed pip u false _, ?_, ?_⟩
  · rw [Parse_host pip u false _ hne, hb.1]
  · rw [Parse_hostInfo pip u false _ hne, hb.1]
    have hsp := splitHostPort_plain d pt hd hdc hptc
    have hhp := hasPort_plain d pt hdc hptc
    exact (PHWP_withPort pip HostInfo.empty _ false d pt hhp hsp hd).2.2.1
  · intro h0
    rw [Parse_path_false pip u _ hne]
    rw [if_pos (hb.2.1 h0)]

/-- One evaluation step of PathWithQueryFragment on a freshly parsed URI whose
full is host concatenated with tail: the memoized value becomes the tail, or
the path when the tail is empty. -/
theorem PWQF_step (v : URI) (h t : List Char)
    (hparsed : v.pathWithQueryFragmentParsed = false) (hic : v.isConnect = false)
    (hhost : v.host = h) (hne : h ≠ []) (hfull : v.full = h ++ t)
    (hpath : t = [] → v.path = ['/']) :
    v.PathWithQueryFragment =
      ((if t = [] then ['/'] else t),
        { v with pathWithQueryFragment := (if t = [] then ['/'] else t),
                 pathWithQueryFragmentParsed := true }) := by
  unfold URI.PathWithQueryFragment
  rw [hparsed, if_neg (by simp)]
  rw [hic, if_neg (by simp)]
  dsimp only
  rw [hhost, hfull, if_neg hne]
  rw [bytesIndex_of_isPrefixOf _ _ (isPrefixOf_append_self h t)]
  dsimp only
  rw [Nat.zero_add, List.drop_left]
  rcases Classical.em (t = []) with h0 | h0
  · rw [if_pos h0, if_pos h0, hpath h0]
  · rw [if_neg h0, if_neg h0]

theorem ChangeHost_hostlike (pip : List Char → Option (List Char)) (u : URI)
    (hwp r : List Char)
    (hu1 : u.isConnect = false) (hu2 : u.host ≠ []) (hu3 : u.full = u.host ++ r)
    (hnewne : hwp ≠ [])
    (hne : u.hostInfo.hostWithPort ≠ hwp) :
    URI.ChangeHost pip u hwp = URI.Parse pip u false (hwp ++ r) := by
  unfold URI.ChangeHost
  rw [if_neg hne]
  dsimp only
  rw [if_neg hu2]
  rw [hu3, bytesIndex_of_isPrefixOf _ _ (isPrefixOf_append_self u.host r)]
  dsimp only
  rw [if_neg hnewne]
  rw [replaceFirst_of_isPrefixOf _ _ hwp (isPrefixOf_append_self u.host r),
    List.drop_left]
  rw [if_neg (fun h0 => hnewne (List.append_eq_nil.mp h0).1)]
  rw [hu1]

theorem ChangeBoth_hostlike (pip : List Char → Option (List Char)) (u : URI)
    (d pt r p : List Char) (hd : d ≠ [])
    (hdc : ∀ c ∈ d, plainHostCharB c = true) (hptc : ∀ c ∈ pt, plainHostCharB c = true)
    (hna : ∃ c ∈ d, isAlnumB c = false)
    (hu1 : u.isConnect = false) (hu2 : u.host ≠ []) (hu3 : u.full = u.host ++ r)
    (hr : r = [] ∨ r.head? = some '/')
    (hne : u.hostInfo.hostWithPort ≠ d ++ ':' :: pt)
    (hp : p.head? = some '/') :
    ((URI.ChangePathWithFragment pip (URI.ChangeHost pip u (d ++ ':' :: pt)) p).PathWithQueryFragment).1
        = p ∧
    (URI.ChangePathWithFragment pip (URI.ChangeHost pip u (d ++ ':' :: pt)) p).hostInfo.hostWithPort
        = d ++ ':' :: pt := by
  have hwpne : d ++ ':' :: pt ≠ [] := by
    cases d with
    | nil => exact absurd rfl hd
    | cons x d2 => simp
  have hpne : p ≠ [] := by
    intro h0
    rw [h0] at hp
    simp at hp
  rw [ChangeHost_hostlike pip u _ r hu1 hu2 hu3 hwpne hne]
  obtain ⟨vhost, vfull, vic, vmemo, vhwp, vpath⟩ :=
    Parse_hostlike pip u d pt r hd hdc hptc hna hr
  unfold URI.ChangePathWithFragment
  rw [if_neg (by rw [vic]; simp)]
  dsimp only
  rw [PWQF_step _ (d ++ ':' :: pt) r vmemo vic vhost hwpne vfull vpath]
  dsimp only
  by_cases hpc : p = (if r = [] then ['/'] else r)
  · rw [if_pos hpc]
    constructor
    · unfold URI.PathWithQueryFragment
      rw [if_pos rfl]
      exact hpc.symm
    · exact vhwp
  · rw [if_neg hpc]
    rw [if_neg (show ¬ (URI.Parse pip u false ((d ++ ':' :: pt) ++ r)).host = []
          from by rw [vhost]; exact hwpne)]
    rw [vfull, vhost]
    rw [bytesIndex_of_isPrefixOf _ _ (isPrefixOf_append_self (d ++ ':' :: pt) r)]
    dsimp only
    rw [Nat.zero_add, List.take_left]
    rw [if_pos hp]
    rw [if_neg (fun h0 => hwpne (List.append_eq_nil.mp h0).1)]
    rw [vic]
    obtain ⟨whost, wfull, wic, wmemo, whwp, _⟩ :=
      Parse_hostlike pip _ d pt p hd hdc hptc hna (Or.inr hp)
    constructor
    · rw [PWQF_step _ (d ++ ':' :: pt) p wmemo wic whost hwpne wfull
        (fun h0 => absurd h0 hpne)]
      dsimp only
      rw [if_neg hpne]
    · exact whwp

/-!
The scheme field of a parse, related to getSchemeIndex, for claim C4.
-/

theorem pwqf2_scheme_iff (u : URI) (s : List Char) (hs : u.scheme = []) :
    ((u.parseWithoutQueriesFragments s).scheme ≠ []) ↔ 1 ≤ getSchemeIndex s := by
  unfold URI.parseWithoutQueriesFragments
  by_cases h0 : s = []
  · rw [if_pos h0, hs, h0]
    constructor
    · intro hcon
      exact absurd rfl hcon
    · intro hcon
      rw [show getSchemeIndex ([] : List Char) = -1 from rfl] at hcon
      omega
  · rw [if_neg h0]
    dsimp only
    by_cases hk : 0 ≤ getSchemeIndex s
    · rw [if_pos hk, pwsqf_scheme]
      constructor
      · intro hne
        rcases Nat.eq_zero_or_pos (getSchemeIndex s).toNat with hz | hpos
        · rw [hz] at hne
          simp at hne
        · omega
      · intro h1
        have h2 : 1 ≤ (getSchemeIndex s).toNat := by omega
        exact take_ne_nil_of_ne_nil s _ h2 h0
    · rw [if_neg hk, pwsqf_scheme, hs]
      constructor
      · intro hcon
        exact absurd rfl hcon
      · intro h1
        omega

theorem pwf_scheme_iff (u : URI) (s : List Char) (hs : u.scheme = []) :
    ((u.parseWithoutFragments s).scheme ≠ []) ↔ 1 ≤ getSchemeIndex s := by
  unfold URI.parseWithoutFragments
  by_cases h0 : s = []
  · rw [if_pos h0, hs, h0]
    constructor
    · intro hcon
      exact absurd rfl hcon
    · intro hcon
      rw [show getSchemeIndex ([] : List Char) = -1 from rfl] at hcon
      omega
  · rw [if_neg h0]
    cases hq : bytesIndexByte s '?' with
    | none => exact pwqf2_scheme_iff u s hs
    | some q =>
      exact Iff.trans (pwqf2_scheme_iff _ _ hs)
        (gs_take_iff s '?' q (by decide) (by decide) hq)

theorem pm_scheme_iff (u : URI) (s : List Char) (hs : u.scheme = []) :
    ((u.parseMain s).scheme ≠ []) ↔ 1 ≤ getSchemeIndex s := by
  unfold URI.parseMain
  cases hf : bytesIndexByte s '#' with
  | none => exact pwf_scheme_iff u s hs
  | some f =>
    exact Iff.trans (pwf_scheme_iff _ _ hs)
      (gs_take_iff s '#' f (by decide) (by decide) hf)

/-!
Slash collapsing, for claim C5.
-/

theorem pwsqf_collapses_all_slashes (u : URI) (s : List Char) (hscheme : u.scheme ≠ [])
    (hs : s.take 2 = ['/', '/']) :
    u.parseWithoutSchemeQueriesFragments s =
      u.parseWithoutSchemeQueriesFragments (s.dropWhile (fun c => c == '/')) := by
  have hlen : 2 ≤ s.length := by
    have h2 := congrArg List.length hs
    simp only [List.length_take, List.length_cons, List.length_nil] at h2
    omega
  have hguard2 : ¬ (u.scheme ≠ [] ∧ 2 ≤ (s.dropWhile (fun c => c == '/')).length ∧
      (s.dropWhile (fun c => c == '/')).take 2 = ['/', '/']) := by
    rintro ⟨-, -, h3⟩
    have hh : (s.dropWhile (fun c => c == '/')).head? = some '/' := by
      cases hdw : s.dropWhile (fun c => c == '/') with
      | nil => rw [hdw] at h3; simp at h3
      | cons c rest =>
        rw [hdw] at h3
        simp only [List.take_succ_cons] at h3
        injection h3 with hc _
        rw [hc]
        rfl
    exact head_dropWhile_ne_slash s hh
  unfold URI.parseWithoutSchemeQueriesFragments
  dsimp only
  rw [if_pos ⟨hscheme, hlen, hs⟩, if_neg hguard2]
  rw [countLeadingSlashes_drop_eq_dropWhile]

/-!
The dial loop, for claim C8: its exact attempt-by-attempt behaviour.
-/

theorem newDialLoop_eq_spec (tryD : Nat → Nat → DialOutcome) (idx n : Nat)
    (hidx : idx < 2 ^ 32) :
    newDialFunc tryD n idx = dialSpecGo tryD idx n 0 none := by
  suffices h : ∀ (k j : Nat) (idx2 : Nat) (last : Option DialErrK),
      k = n - j → j ≤ n → idx2 = (idx + j) % 2 ^ 32 →
      newDialLoop tryD j idx2 k last = dialSpecGo tryD idx n j last by
    exact h n 0 idx none (by omega) (by omega)
      (by rw [Nat.add_zero, Nat.mod_eq_of_lt hidx])
  intro k
  induction k with
  | zero =>
    intro j idx2 last hk hj hidx2
    rw [newDialLoop, dialSpecGo]
    rw [dif_neg (by omega)]
  | succ m ih =>
    intro j idx2 last hk hj hidx2
    have hjn : j < n := by omega
    rw [newDialLoop, dialSpecGo, dif_pos hjn]
    have haddr : idx2 % (m + 1) = ((idx + j) % 2 ^ 32) % (n - j) := by
      rw [hidx2, hk]
    rw [haddr]
    cases tryD j (((idx + j) % 2 ^ 32) % (n - j)) with
    | ok c => rfl
    | timeout => rfl
    | fail e =>
      exact ih (j + 1) ((idx2 + 1) % 2 ^ 32) (some (.other e)) (by omega) (by omega)
        (by
          rw [hidx2, show idx + (j + 1) = (idx + j) + 1 from by omega,
            Nat.add_mod (idx + j) 1, Nat.mod_eq_of_lt (show (1 : Nat) < 2 ^ 32 by norm_num)])

/-!
Association-list lemma for the DNS cache model, for claim C9.
-/

theorem lookupA_insertA_self {α : Type} (m : AddrMap α) (k : String) (v : TcpAddrEntry α) :
    lookupA (insertA m k v) k = some v := by
  induction m with
  | nil => simp [insertA, lookupA]
  | cons kv rest ih =>
    obtain ⟨k2, w⟩ := kv
    by_cases hk : k2 = k
    · simp [insertA, hk, lookupA]
    · simp [insertA, hk, lookupA, ih]

/-!
Claim theorems.  Each theorem settles one claim of the specification; the
witness theorems instantiate the hypotheses at concrete inputs, and the
counterexample theorems exhibit concrete inputs refuting a claim as stated.
-/

/-- Claim C2: for every byte string raw and every flag isConnect, immediately
after Parse the full field of the URI equals raw byte for byte. -/
theorem spec2_c2 (pip : List Char → Option (List Char)) (u : URI) (ic : Bool)
    (raw : List Char) : (URI.Parse pip u ic raw).full = raw :=
  Parse_full pip u ic raw

/-- Claim C3, counterexample: parsing the empty byte string with isConnect
false returns before the path default is applied, so the path stays empty
rather than becoming a single slash. -/
theorem spec2_c3_counterexample :
    (URI.Parse pipNone URI.empty false []).path = [] ∧
    (URI.Parse pipNone URI.empty false []).path ≠ str "/" := by
  exact ⟨rfl, by decide⟩

/-- Claim C3, amended: for every NONEMPTY raw parsed with isConnect false, if
the parser stages extract no path component then the path field becomes a
single slash; for empty raw the parser returns early and the path stays
empty. -/
theorem spec2_c3 (pip : List Char → Option (List Char)) (u : URI) (raw : List Char)
    (hne : raw ≠ []) (hnopath : (URI.parseBody u false raw).path = []) :
    (URI.Parse pip u false raw).path = str "/" := by
  rw [Parse_path_false pip u raw hne, if_pos hnopath]
  rfl

/-- Witness for the amended claim C3 at the host-only input a.b. -/
theorem spec2_c3_witness :
    (URI.Parse pipNone URI.empty false (str "a.b")).path = str "/" :=
  spec2_c3 pipNone URI.empty (str "a.b") (by decide) (by decide)

/-- Claim C4: Parse recognizes a scheme (the scheme field of the parsed URI is
nonempty) exactly when the input begins with one or more ASCII alphanumeric
bytes followed by a colon; in particular an input starting with a colon, or
with any other byte before the colon, yields no scheme. -/
theorem spec2_c4 (pip : List Char → Option (List Char)) (u : URI) (raw : List Char) :
    ((URI.Parse pip u false raw).scheme ≠ []) ↔ schemeRegexSpec raw = true := by
  by_cases h0 : raw = []
  · subst h0
    constructor
    · intro hcon
      exact absurd rfl hcon
    · intro hcon
      rw [show schemeRegexSpec [] = false from rfl] at hcon
      simp at hcon
  · rw [Parse_scheme_false pip u raw h0]
    unfold URI.parseBody
    rw [pm_scheme_iff _ raw rfl]
    exact (schemeRegexSpec_iff raw).symm

/-- Claim C5, counterexample: with a recognized scheme and remainder two
slashes then h, the code consumes BOTH leading slashes and extracts the host
h, while the claim predicts one slash is left, in which case the split would
see a leading slash and extract no host at all. -/
theorem spec2_c5_counterexample :
    ({ URI.empty with scheme := str "http" }.parseWithoutSchemeQueriesFragments
        (str "//h")).host = str "h" ∧
    ({ URI.empty with scheme := str "http" }.parseWithoutSchemeQueriesFragments
        ('/' :: (str "//h").dropWhile (fun c => c == '/'))).host = [] := by
  exact ⟨rfl, rfl⟩

/-- Claim C5, amended: when a scheme is present and the remainder starts with
two slashes, parseWithoutSchemeQueriesFragments consumes the whole leading run
of slashes, leaving none, and the host and path split is taken from what
remains. -/
theorem spec2_c5 (u : URI) (s : List Char) (hscheme : u.scheme ≠ [])
    (hs : s.take 2 = ['/', '/']) :
    u.parseWithoutSchemeQueriesFragments s =
      u.parseWithoutSchemeQueriesFragments (s.dropWhile (fun c => c == '/')) :=
  pwsqf_collapses_all_slashes u s hscheme hs

/-- Witness for the amended claim C5 on the input three slashes then h/p. -/
theorem spec2_c5_witness :
    { URI.empty with scheme := str "http" }.parseWithoutSchemeQueriesFragments
        (str "///h/p") =
      { URI.empty with scheme := str "http" }.parseWithoutSchemeQueriesFragments
        (str "h/p") := by
  have h := spec2_c5 { URI.empty with scheme := str "http" } (str "///h/p")
    (by decide) (by decide)
  exact h

/-- Claim C6: after Parse with isConnect true, scheme, path, queries and
fragments are all empty and PathWithQueryFragment returns the empty string. -/
theorem spec2_c6 (pip : List Char → Option (List Char)) (u : URI) (raw : List Char) :
    (URI.Parse pip u true raw).scheme = [] ∧
    (URI.Parse pip u true raw).path = [] ∧
    (URI.Parse pip u true raw).queries = [] ∧
    (URI.Parse pip u true raw).fragments = [] ∧
    ((URI.Parse pip u true raw).PathWithQueryFragment).1 = [] := by
  obtain ⟨h1, h2, h3, h4⟩ := Parse_connect_clears pip u raw
  refine ⟨h1, h2, h3, h4, ?_⟩
  unfold URI.PathWithQueryFragment
  rw [Parse_memoParsed pip u true raw, if_neg (by simp)]
  rw [Parse_isConnect pip u true raw, if_pos rfl]

/-- Claim C7: for a nonempty host string, the port presence test is that the
last colon sits after the last closing bracket (IPv6 handling); without a port
the default is 443 for HTTPS or CONNECT and 80 otherwise, the domain is the
whole input, and hostWithPort is domain colon port; with a port, a successful
split with nonempty domain also yields hostWithPort equal to domain colon
port. -/
theorem spec2_c7 (pip : List Char → Option (List Char)) (h0 : HostInfo)
    (host : List Char) (isHTTPS : Bool) (hne : host ≠ []) :
    hasPortFuncByte host = decide (lastIndexByte host ']' < lastIndexByte host ':') ∧
    (hasPortFuncByte host = false →
      (HostInfo.ParseHostWithPort pip h0 host isHTTPS).port
          = (if isHTTPS then str "443" else str "80") ∧
      (HostInfo.ParseHostWithPort pip h0 host isHTTPS).domain = host ∧
      (HostInfo.ParseHostWithPort pip h0 host isHTTPS).hostWithPort
          = (HostInfo.ParseHostWithPort pip h0 host isHTTPS).domain ++ ':'
              :: (HostInfo.ParseHostWithPort pip h0 host isHTTPS).port) ∧
    (∀ d p : List Char, hasPortFuncByte host = true → splitHostPort host = some (d, p) →
      d ≠ [] →
      (HostInfo.ParseHostWithPort pip h0 host isHTTPS).domain = d ∧
      (HostInfo.ParseHostWithPort pip h0 host isHTTPS).port = p ∧
      (HostInfo.ParseHostWithPort pip h0 host isHTTPS).hostWithPort
          = (HostInfo.ParseHostWithPort pip h0 host isHTTPS).domain ++ ':'
              :: (HostInfo.ParseHostWithPort pip h0 host isHTTPS).port) := by
  refine ⟨rfl, ?_, ?_⟩
  · intro hp
    obtain ⟨hd, hpt, hh, _⟩ := PHWP_noPort pip h0 host isHTTPS hne hp
    exact ⟨hpt, hd, by rw [hh, hd, hpt]⟩
  · intro d p hp hsplit hdne
    obtain ⟨hd, hpt, hh, _⟩ := PHWP_withPort pip h0 host isHTTPS d p hp hsplit hdne
    exact ⟨hd, hpt, by rw [hh, hd, hpt]⟩

/-- Witness for claim C7 at the portless host x.y with isHTTPS false. -/
theorem spec2_c7_witness :
    (HostInfo.ParseHostWithPort pipNone HostInfo.empty (str "x.y") false).port
        = str "80" ∧
    (HostInfo.ParseHostWithPort pipNone HostInfo.empty (str "x.y") false).hostWithPort
        = str "x.y:80" := by
  have h := spec2_c7 pipNone HostInfo.empty (str "x.y") false (by decide)
  obtain ⟨-, h2, -⟩ := h
  obtain ⟨hp, hd, hh⟩ := h2 (by decide)
  refine ⟨hp, ?_⟩
  rw [hh, hd, hp]
  decide

/-- Claim C10: whenever the input passes the port presence test but
net.SplitHostPort fails on it, ParseHostWithPort resets the HostInfo
entirely: domain, port, hostWithPort and targetWithPort are empty and the ip
is nil, regardless of what the HostInfo held before. -/
theorem spec2_c10 (pip : List Char → Option (List Char)) (h0 : HostInfo)
    (host : List Char) (isHTTPS : Bool)
    (hp : hasPortFuncByte host = true) (hsplit : splitHostPort host = none) :
    (HostInfo.ParseHostWithPort pip h0 host isHTTPS).domain = [] ∧
    (HostInfo.ParseHostWithPort pip h0 host isHTTPS).ip = none ∧
    (HostInfo.ParseHostWithPort pip h0 host isHTTPS).port = [] ∧
    (HostInfo.ParseHostWithPort pip h0 host isHTTPS).hostWithPort = [] ∧
    (HostInfo.ParseHostWithPort pip h0 host isHTTPS).targetWithPort = [] := by
  rw [PHWP_err pip h0 host isHTTPS hp hsplit]
  exact ⟨rfl, rfl, rfl, rfl, rfl⟩

/-- Witness for claim C10 at the input a:b:c, which has a port separator but
two colons in the host part, so net.SplitHostPort rejects it. -/
theorem spec2_c10_witness :
    (HostInfo.ParseHostWithPort pipNone
        ⟨str "x", some (str "9.9.9.9"), str "1", str "x:1", str "x:1"⟩
        (str "a:b:c") false).domain = [] ∧
    (HostInfo.ParseHostWithPort pipNone
        ⟨str "x", some (str "9.9.9.9"), str "1", str "x:1", str "x:1"⟩
        (str "a:b:c") false).ip = none ∧
    (HostInfo.ParseHostWithPort pipNone
        ⟨str "x", some (str "9.9.9.9"), str "1", str "x:1", str "x:1"⟩
        (str "a:b:c") false).port = [] ∧
    (HostInfo.ParseHostWithPort pipNone
        ⟨str "x", some (str "9.9.9.9"), str "1", str "x:1", str "x:1"⟩
        (str "a:b:c") false).hostWithPort = [] ∧
    (HostInfo.ParseHostWithPort pipNone
        ⟨str "x", some (str "9.9.9.9"), str "1", str "x:1", str "x:1"⟩
        (str "a:b:c") false).targetWithPort = [] :=
  spec2_c10 pipNone _ (str "a:b:c") false (by decide) (by decide)

/-- Claim C1, counterexample: two failures of the claim as stated.  First,
with the new path y, which has no leading slash, the reconstruction inserts a
slash, so PathWithQueryFragment afterwards is slash y rather than y.  Second,
ChangeHost to localhost:8080 misparses, because the reparse reads the
all-alphanumeric localhost as a scheme: hostWithPort becomes 8080:80. -/
theorem spec2_c1_counterexample :
    (((URI.Parse pipNone URI.empty false (str "a.b:1/x")).ChangeHost pipNone
          (str "c.d:2")).ChangePathWithFragment pipNone
            (str "y")).PathWithQueryFragment.1 = str "/y" ∧
    str "/y" ≠ str "y" ∧
    ((URI.Parse pipNone URI.empty false (str "a.b:1/x")).ChangeHost pipNone
        (str "localhost:8080")).hostInfo.hostWithPort = str "8080:80" ∧
    str "8080:80" ≠ str "localhost:8080" := by
  exact ⟨rfl, by decide, rfl, by decide⟩

/-- Claim C1, amended: start from a non-CONNECT URI whose full field is its
nonempty host followed by a remainder that is empty or begins with a slash.
Take a new host of the shape domain colon port where domain and port are
nonempty, contain none of the delimiter bytes slash, question mark, number
sign, bracket or colon, the domain has at least one non-alphanumeric byte (so
the reparse cannot read it as a scheme), and the new host differs from the
current hostWithPort.  Then for every new path that begins with a slash,
calling ChangeHost and then ChangePathWithFragment yields a URI whose
PathWithQueryFragment equals the new path and whose HostWithPort equals the
new host. -/
theorem spec2_c1 (pip : List Char → Option (List Char)) (u : URI)
    (d pt r p : List Char) (hd : d ≠ [])
    (hdc : ∀ c ∈ d, plainHostCharB c = true) (hptc : ∀ c ∈ pt, plainHostCharB c = true)
    (hna : ∃ c ∈ d, isAlnumB c = false)
    (hu1 : u.isConnect = false) (hu2 : u.host ≠ []) (hu3 : u.full = u.host ++ r)
    (hr : r = [] ∨ r.head? = some '/')
    (hne : u.hostInfo.hostWithPort ≠ d ++ ':' :: pt)
    (hp : p.head? = some '/') :
    ((URI.ChangePathWithFragment pip (URI.ChangeHost pip u (d ++ ':' :: pt))
        p).PathWithQueryFragment).1 = p ∧
    (URI.ChangePathWithFragment pip (URI.ChangeHost pip u (d ++ ':' :: pt))
        p).hostInfo.hostWithPort = d ++ ':' :: pt :=
  ChangeBoth_hostlike pip u d pt r p hd hdc hptc hna hu1 hu2 hu3 hr hne hp

/-- Witness for the amended claim C1: host changed to c.d:2 and path to
slash y on a URI parsed from a.b:1/x. -/
theorem spec2_c1_witness :
    (((URI.Parse pipNone URI.empty false (str "a.b:1/x")).ChangeHost pipNone
          (str "c.d" ++ ':' :: str "2")).ChangePathWithFragment pipNone
            (str "/y")).PathWithQueryFragment.1 = str "/y" ∧
    (((URI.Parse pipNone URI.empty false (str "a.b:1/x")).ChangeHost pipNone
          (str "c.d" ++ ':' :: str "2")).ChangePathWithFragment pipNone
            (str "/y")).hostInfo.hostWithPort = str "c.d" ++ ':' :: str "2" :=
  spec2_c1 pipNone (URI.Parse pipNone URI.empty false (str "a.b:1/x"))
    (str "c.d") (str "2") (str "/x") (str "/y")
    (by decide) (by decide) (by decide) (by decide)
    (by decide) (by decide) (by decide)
    (Or.inr (by decide)) (by decide) (by decide)

/-- Claim C8: the dialer does not try the resolved addresses sequentially; it
indexes the shrinking remainder, so an address can be retried while another is
never tried.  With three addresses, round-robin start 0, and an oracle that
fails on addresses 0 and 1 but always succeeds on address 2, the dial loop
tries positions 0, 1 and again 0 and returns the failure of address 0, never
dialing address 2.  The spec of the repository promises round-robin over all
addresses, so this is a divergence of the code from its own documentation. -/
theorem spec2_c8 :
    (∀ j : Nat,
      (fun _ k => if k = 2 then DialOutcome.ok 7 else DialOutcome.fail k) j 2
        = DialOutcome.ok 7) ∧
    newDialFunc (fun _ k => if k = 2 then DialOutcome.ok 7 else DialOutcome.fail k) 3 0
      = Except.error (some (DialErrK.other 0)) := by
  constructor
  · intro j
    rfl
  · rfl

/-- Claim C9: a cached DNS entry that is stale (older than the cache duration)
and not pending is marked pending and reresolved; if the resolution fails the
pending mark is cleared, the error is returned, and the stale entry stays in
the map unchanged; if it succeeds a fresh entry with the new addresses, the
current time and round-robin index one replaces the old one and is returned. -/
theorem spec2_c9 {α : Type} (m : AddrMap α) (addr : String) (now : Nat)
    (e : TcpAddrEntry α) (addrs : List α)
    (hl : lookupA m addr = some e) (hp : e.pending = false)
    (hstale : DefaultDNSCacheDuration < now - e.resolveTime) :
    ((getTCPAddrs m addr now none).2 = none ∧
     lookupA (getTCPAddrs m addr now none).1 addr = some e) ∧
    ((getTCPAddrs m addr now (some addrs)).2 = some (addrs, 1) ∧
     lookupA (getTCPAddrs m addr now (some addrs)).1 addr
       = some ⟨addrs, 1, now, false⟩) := by
  obtain ⟨ea, ei, er, ep⟩ := e
  dsimp only at hp hstale
  subst hp
  refine ⟨⟨?_, ?_⟩, ?_, ?_⟩
  · unfold getTCPAddrs
    rw [hl]
    dsimp only
    rw [if_pos ⟨rfl, hstale⟩]
  · unfold getTCPAddrs
    rw [hl]
    dsimp only
    rw [if_pos ⟨rfl, hstale⟩]
    dsimp only
    rw [lookupA_insertA_self]
    dsimp only
    rw [if_pos rfl]
    rw [lookupA_insertA_self]
  · unfold getTCPAddrs
    rw [hl]
    dsimp only
    rw [if_pos ⟨rfl, hstale⟩]
    dsimp only
    rw [show ((0 : Nat) + 1) % 2 ^ 32 = 1 from by norm_num]
  · unfold getTCPAddrs
    rw [hl]
    dsimp only
    rw [if_pos ⟨rfl, hstale⟩]
    dsimp only
    rw [lookupA_insertA_self]
    rw [show ((0 : Nat) + 1) % 2 ^ 32 = 1 from by norm_num]

/-- Witness for claim C9 on a one-entry map with a stale resolved entry. -/
theorem spec2_c9_witness :
    ((getTCPAddrs [("a", (⟨[5], 3, 0, false⟩ : TcpAddrEntry Nat))] "a"
        (DefaultDNSCacheDuration + 1) none).2 = none ∧
     lookupA (getTCPAddrs [("a", (⟨[5], 3, 0, false⟩ : TcpAddrEntry Nat))] "a"
        (DefaultDNSCacheDuration + 1) none).1 "a" = some ⟨[5], 3, 0, false⟩) ∧
    ((getTCPAddrs [("a", (⟨[5], 3, 0, false⟩ : TcpAddrEntry Nat))] "a"
        (DefaultDNSCacheDuration + 1) (some [9])).2 = some ([9], 1) ∧
     lookupA (getTCPAddrs [("a", (⟨[5], 3, 0, false⟩ : TcpAddrEntry Nat))] "a"
        (DefaultDNSCacheDuration + 1) (some [9])).1 "a"
       = some ⟨[9], 1, DefaultDNSCacheDuration + 1, false⟩) :=
  spec2_c9 [("a", (⟨[5], 3, 0, false⟩ : TcpAddrEntry Nat))] "a"
    (DefaultDNSCacheDuration + 1) ⟨[5], 3, 0, false⟩ [9]
    (by decide) rfl (by decide)

end Fastproxy
